import Mathlib

/-!
Verification development for the mira-knowledge ingestion pipeline.

The definitions below are a shallow embedding of the repository's two
ingestion scripts (`ingest.py`, the remote-store variant, and
`custom-ingestion.py`, the local-store variant) together with the crawl
scripts' data shapes.  Pure transformations (record parsing, markdown
header splitting, character splitting, metadata flattening) become Lean
functions; the effectful tail of `ingest.py` (table creation, ledger
write, row insertion, index creation) becomes an explicit event order and
a state-passing run function.  The langchain text splitters invoked by
the scripts are third-party code not present in the repository; they are
modelled from the specification's description of their behaviour, as
marked on each such definition.
-/

/-- A raw source record as read from the per-source JSON files.
`title` is the top-level `title` field (read by `ingest.py` via
`item.get("title", "")`), `metaTitle` is the nested `metadata.title`
field (read by `custom-ingestion.py` via
`item.get("metadata", {}).get("title", "N/A")`), `markdown` and `url`
are the corresponding top-level fields; `none` models an absent field. -/
structure RawRecord where
  title : Option String
  metaTitle : Option String
  markdown : Option String
  url : Option String
deriving DecidableEq, Repr

/-- One parsed page, the shape appended to `parsed_data` by both
ingestion scripts: a dict with `title`, `content` and a metadata dict
holding `url` and `source`. -/
structure ParsedPage where
  title : String
  content : String
  url : String
  source : String
deriving DecidableEq, Repr

/-- `ingest.py`: `title = item.get("title", "")`,
`content = item.get("markdown", "")`, `url = item.get("url", "N/A")`. -/
def parseItem (source : String) (it : RawRecord) : ParsedPage :=
  { title := it.title.getD ""
    content := it.markdown.getD ""
    url := it.url.getD "N/A"
    source := source }

/-- `custom-ingestion.py`:
`title = item.get("metadata", {}).get("title", "N/A")`, rest as in
`ingest.py`. -/
def parseItemCustom (source : String) (it : RawRecord) : ParsedPage :=
  { title := it.metaTitle.getD "N/A"
    content := it.markdown.getD ""
    url := it.url.getD "N/A"
    source := source }

/-- The `parsed_data` list built by the record loop of `ingest.py`
over `(source label, record list)` input pairs. -/
def parsed_data (files : List (String × List RawRecord)) : List ParsedPage :=
  files.flatMap (fun f => f.2.map (parseItem f.1))

/-- The `parsed_data` list built by `custom-ingestion.py`. -/
def parsed_data_custom (files : List (String × List RawRecord)) : List ParsedPage :=
  files.flatMap (fun f => f.2.map (parseItemCustom f.1))

/-- Split a character list into lines at newline characters. -/
def splitLinesAux : List Char → List Char → List String
  | [], acc => [String.mk acc.reverse]
  | c :: rest, acc =>
    if c = '\n' then String.mk acc.reverse :: splitLinesAux rest []
    else splitLinesAux rest (c :: acc)

/-- Split a string into its lines. -/
def splitLines (s : String) : List String :=
  splitLinesAux s.toList []

/-- Drop leading and trailing spaces from a character list. -/
def trimChars (cs : List Char) : List Char :=
  ((cs.dropWhile (fun c => c = ' ')).reverse.dropWhile (fun c => c = ' ')).reverse

/-- Modelled from the spec: heading-line detection of the langchain
MarkdownHeaderTextSplitter (not in the repository), restricted to the
configured heading depth.  A line is a heading of level `n` when it
starts with `n` hash marks (`1 ≤ n ≤ maxLevel`) followed by a space or
end of line; the heading text is the trimmed remainder. -/
def headingOf (maxLevel : Nat) (line : String) : Option (Nat × String) :=
  let cs := line.toList
  let n := (cs.takeWhile (fun c => c = '#')).length
  let rest := cs.drop n
  if 1 ≤ n ∧ n ≤ maxLevel ∧ (rest = [] ∨ rest.head? = some ' ') then
    some (n, String.mk (trimChars rest))
  else none

/-- Modelled from the spec: heading-stack update — a new heading at
level `n` replaces the entry at level `n` and clears all deeper
levels. -/
def updateStack (st : List (Nat × String)) (n : Nat) (t : String) :
    List (Nat × String) :=
  st.filter (fun p => p.1 < n) ++ [(n, t)]

/-- One markdown section: its text (heading line retained, per
`strip_headers=False`) and the heading stack in effect. -/
structure MdSection where
  text : String
  headers : List (Nat × String)
deriving DecidableEq, Repr

/-- Join accumulated lines back with newlines. -/
def joinLines : List String → String
  | [] => ""
  | [l] => l
  | l :: l2 :: rest => l ++ "\n" ++ joinLines (l2 :: rest)

/-- Whether a line has no characters. -/
def isBlank (s : String) : Bool :=
  s.toList.isEmpty

/-- Emit the accumulated section, unless it holds no content. -/
def flushSection (acc : List String) (st : List (Nat × String)) :
    List MdSection :=
  if acc.all isBlank then [] else [⟨joinLines acc, st⟩]

/-- Modelled from the spec: the line loop of the markdown header
splitter.  A heading line flushes the current section, updates the
stack, and starts a new section beginning with the heading line
itself. -/
def mdGo (hd : String → Option (Nat × String)) :
    List String → List String → List (Nat × String) → List MdSection
  | [], acc, st => flushSection acc st
  | line :: rest, acc, st =>
    match hd line with
    | some (n, t) =>
      flushSection acc st ++ mdGo hd rest [line] (updateStack st n t)
    | none => mdGo hd rest (acc ++ [line]) st

/-- Modelled from the spec: `markdown_splitter.split_text`, the
langchain MarkdownHeaderTextSplitter (not in the repository) configured
with `strip_headers=False` and hash headings up to `maxLevel`
(`ingest.py` configures levels 1..6, `custom-ingestion.py` 1..4). -/
def markdownSplit (maxLevel : Nat) (md : String) : List MdSection :=
  mdGo (headingOf maxLevel) (splitLines md) [] []

/-- Modelled from the spec: the character splitter loop.  `cut` chooses
the length of the next chunk for an oversized text (the greedy boundary
search of the spec, or the hard cut at `size`); the next chunk restarts
`overlap` characters before the previous cut.  Fuel bounds the
recursion; it is instantiated with the text length, which suffices
whenever `cut` makes progress. -/
def splitWithF (size overlap : Nat) (cut : List Char → Nat) :
    Nat → List Char → List (List Char)
  | 0, cs => [cs]
  | fuel + 1, cs =>
    if cs.length ≤ size then [cs]
    else cs.take (cut cs) :: splitWithF size overlap cut fuel (cs.drop (cut cs - overlap))

/-- Split a character list into chunks of at most `size` characters
with `overlap` characters repeated across adjacent chunks. -/
def splitWith (size overlap : Nat) (cut : List Char → Nat) (cs : List Char) :
    List (List Char) :=
  splitWithF size overlap cut cs.length cs

/-- Modelled from the spec: `text_splitter.split_documents` text
splitting (langchain RecursiveCharacterTextSplitter, not in the
repository), with the hard cut at `size`. -/
def splitString (size overlap : Nat) (s : String) : List String :=
  (splitWith size overlap (fun _ => size) s.toList).map String.mk

/-- A langchain Document after splitting: page content plus a metadata
dict, modelled as an association list. -/
structure SplitDoc where
  pageContent : String
  metadata : List (String × String)
deriving DecidableEq, Repr

/-- Metadata key for a heading level, `header_1` .. `header_6`. -/
def headerKey (n : Nat) : String :=
  "header_" ++ toString n

/-- Apply the character splitter to every markdown section, copying the
section's heading metadata onto each resulting document. -/
def textSplitDocs (size overlap : Nat) (secs : List MdSection) : List SplitDoc :=
  secs.flatMap (fun sec =>
    (splitString size overlap sec.text).map
      (fun t => ⟨t, sec.headers.map (fun p => (headerKey p.1, p.2))⟩))

/-- The page-level metadata entries set on every split in the chunk
loop of both scripts: `page_title`, `url`, `source`. -/
def pageMeta (p : ParsedPage) : List (String × String) :=
  [("page_title", p.title), ("url", p.url), ("source", p.source)]

/-- The `chunk_size` configured by both scripts. -/
def chunk_size : Nat := 2000

/-- The `chunk_overlap` configured by both scripts. -/
def chunk_overlap : Nat := 200

/-- The chunk list produced from one parsed page by `ingest.py`
(markdown split on levels 1..6, then character split, then page
metadata attached). -/
def chunkPage (p : ParsedPage) : List SplitDoc :=
  (textSplitDocs chunk_size chunk_overlap (markdownSplit 6 p.content)).map
    (fun d => ⟨d.pageContent, d.metadata ++ pageMeta p⟩)

/-- The chunk list produced from one parsed page by
`custom-ingestion.py` (markdown split on levels 1..4). -/
def chunkPageCustom (p : ParsedPage) : List SplitDoc :=
  (textSplitDocs chunk_size chunk_overlap (markdownSplit 4 p.content)).map
    (fun d => ⟨d.pageContent, d.metadata ++ pageMeta p⟩)

/-- The full `chunks` list of `ingest.py` over the given input files. -/
def ingestChunks (files : List (String × List RawRecord)) : List SplitDoc :=
  (parsed_data files).flatMap chunkPage

/-- The full `chunks` list of `custom-ingestion.py`. -/
def customChunks (files : List (String × List RawRecord)) : List SplitDoc :=
  (parsed_data_custom files).flatMap chunkPageCustom

/-- Dictionary lookup in an association-list metadata dict. -/
def lookupMeta (k : String) (m : List (String × String)) : Option String :=
  (m.find? (fun p => p.1 == k)).map (fun p => p.2)

/-- The `ChunkMetadata` schema of both scripts: the nested metadata
record written to the vector table has exactly the fields
`header_1..header_4`, `page_title`, `source`, `url`. -/
structure ChunkMetadata where
  header_1 : Option String
  header_2 : Option String
  header_3 : Option String
  header_4 : Option String
  page_title : Option String
  source : Option String
  url : Option String
deriving DecidableEq, Repr

/-- The metadata dict built for each element of `processed_chunks`:
`header_1..header_4` when present, else null, plus `page_title`,
`source`, `url`. -/
def toStoredMeta (m : List (String × String)) : ChunkMetadata :=
  { header_1 := lookupMeta "header_1" m
    header_2 := lookupMeta "header_2" m
    header_3 := lookupMeta "header_3" m
    header_4 := lookupMeta "header_4" m
    page_title := lookupMeta "page_title" m
    source := lookupMeta "source" m
    url := lookupMeta "url" m }

/-- One row of the vector table as prepared by `processed_chunks`:
the chunk text and the flattened metadata record. -/
structure StoredRow where
  text : String
  metadata : ChunkMetadata
deriving DecidableEq, Repr

/-- Convert one chunk to its stored row. -/
def toStoredRow (c : SplitDoc) : StoredRow :=
  ⟨c.pageContent, toStoredMeta c.metadata⟩

/-- The `processed_chunks` list of `ingest.py`: every chunk mapped to
its stored row, in chunk order. -/
def processed_chunks (files : List (String × List RawRecord)) : List StoredRow :=
  (ingestChunks files).map toStoredRow

/-- The effectful steps of `ingest.py` after chunking, in program
order: create the chunk table (overwrite), open or create the config
table, delete any existing `knowledge_version` row, add the new
`knowledge_version` row, add the chunk rows, create the full-text
index, create the vector index. -/
inductive IngestEvent where
  | createChunkTable
  | openConfigTable
  | deleteVersionKey
  | addVersionRow
  | addChunkRows
  | createFtsIndex
  | createVectorIndex
deriving DecidableEq, Repr

/-- The order in which `ingest.py` performs its storage operations
(source lines 150, 157-160, 168-171, 174, 213, 215, 223). -/
def ingestEventOrder : List IngestEvent :=
  [IngestEvent.createChunkTable, IngestEvent.openConfigTable,
   IngestEvent.deleteVersionKey, IngestEvent.addVersionRow,
   IngestEvent.addChunkRows, IngestEvent.createFtsIndex,
   IngestEvent.createVectorIndex]

/-- Observable store state: the config (ledger) table rows, the chunk
table rows, and whether the chunk table has been (re)created. -/
structure StoreState where
  configRows : List (String × String)
  chunkRows : List StoredRow
  chunkTableCreated : Bool
deriving DecidableEq, Repr

/-- Read the ledger: value of the `knowledge_version` key. -/
def getVersion (s : StoreState) : Option String :=
  lookupMeta "knowledge_version" s.configRows

/-- One run of the storage tail of `ingest.py`: create the chunk table
in overwrite mode (clearing its rows), delete-then-insert the
`knowledge_version` config row with today's date, then add the chunk
rows.  `chunkAddFails` simulates a store failure at `table.add`; the
run aborts there and the second component reports failure.  The ledger
write happens before the chunk-row write, exactly as in the script. -/
def runIngest (initConfig : List (String × String))
    (files : List (String × List RawRecord)) (today : String)
    (chunkAddFails : Bool) : StoreState × Bool :=
  let afterCreate : StoreState := ⟨initConfig, [], true⟩
  let afterLedger : StoreState :=
    ⟨(afterCreate.configRows.filter (fun kv => ¬ (kv.1 = "knowledge_version")))
       ++ [("knowledge_version", today)],
     afterCreate.chunkRows, afterCreate.chunkTableCreated⟩
  if chunkAddFails then (afterLedger, false)
  else (⟨afterLedger.configRows, processed_chunks files, true⟩, true)

/-- The fixed polling interval (seconds) of `wait_for_index`. -/
def POLL_INTERVAL : Nat := 10

/-- The loop condition of `wait_for_index`:
`indices and any(index.name == index_name for index in indices)`. -/
def indexFound (indices : List String) (name : String) : Bool :=
  !indices.isEmpty && indices.any (fun n => n == name)

/-- The polling loop of `wait_for_index`, with the table's index list
exposed as a function of the poll number and an explicit fuel bound in
place of unbounded looping: `waitFrom l name fuel k` polls
`l k, l (k+1), ...` and returns the poll number at which the named
index first appears, or `none` if it does not appear within `fuel`
polls. -/
def waitFrom (l : Nat → List String) (name : String) :
    Nat → Nat → Option Nat
  | 0, _ => none
  | fuel + 1, k =>
    if indexFound (l k) name then some k else waitFrom l name fuel (k + 1)

/-! ## Helper lemmas -/

/-- Looking a key up past a cons whose key differs is a lookup in the
tail. -/
theorem lookupMeta_cons_of_ne (k k' v : String) (m : List (String × String))
    (h : (k' == k) = false) :
    lookupMeta k ((k', v) :: m) = lookupMeta k m := by
  simp [lookupMeta, List.find?_cons, h]

/-- Delete-then-insert leaves exactly the inserted value under the
key. -/
theorem lookupMeta_filter_append (l : List (String × String)) (k v : String) :
    lookupMeta k ((l.filter (fun kv => ¬ (kv.1 = k))) ++ [(k, v)]) = some v := by
  induction l with
  | nil => simp [lookupMeta]
  | cons kv t ih =>
    obtain ⟨k', v'⟩ := kv
    by_cases h : k' = k
    · simpa [List.filter_cons, h] using ih
    · rw [List.filter_cons, if_pos (by simpa using h), List.cons_append,
        lookupMeta_cons_of_ne k k' v' _ (by simpa using h)]
      exact ih

/-- The markdown line loop only inspects lines through the heading
detector, so two detectors agreeing on every line of the input produce
the same sections. -/
theorem mdGo_congr (hd1 hd2 : String → Option (Nat × String)) :
    ∀ (lines acc : List String) (st : List (Nat × String)),
    (∀ l ∈ lines, hd1 l = hd2 l) →
    mdGo hd1 lines acc st = mdGo hd2 lines acc st := by
  intro lines
  induction lines with
  | nil => intro acc st _; rfl
  | cons line rest ih =>
    intro acc st h
    have h1 : hd1 line = hd2 line := h line (by simp)
    have h2 : ∀ l ∈ rest, hd1 l = hd2 l := fun l hl => h l (by simp [hl])
    simp only [mdGo, h1]
    cases hd2 line with
    | none => exact ih (acc ++ [line]) st h2
    | some nt =>
      obtain ⟨n, t⟩ := nt
      show flushSection acc st ++ mdGo hd1 rest [line] (updateStack st n t) =
        flushSection acc st ++ mdGo hd2 rest [line] (updateStack st n t)
      rw [ih [line] (updateStack st n t) h2]

/-- A record whose top-level title and nested metadata title agree, and
whose markdown has no level-5 or level-6 heading line, is chunked
identically by the two ingestion variants. -/
theorem chunkPage_eq_custom (s : String) (r : RawRecord)
    (ht : r.title.getD "" = r.metaTitle.getD "N/A")
    (hh : ∀ l ∈ splitLines (r.markdown.getD ""), headingOf 6 l = headingOf 4 l) :
    chunkPage (parseItem s r) = chunkPageCustom (parseItemCustom s r) := by
  have hp : parseItem s r = parseItemCustom s r := by
    simp [parseItem, parseItemCustom, ht]
  rw [hp]
  have hmd : markdownSplit 6 (parseItemCustom s r).content =
      markdownSplit 4 (parseItemCustom s r).content := by
    have hc : (parseItemCustom s r).content = r.markdown.getD "" := rfl
    rw [hc]
    exact mdGo_congr (headingOf 6) (headingOf 4) (splitLines (r.markdown.getD "")) [] [] hh
  simp [chunkPage, chunkPageCustom, hmd]

/-- The records of one source file are chunked identically by both
variants when each record satisfies the agreement conditions. -/
theorem chunkRecords_eq_custom (s : String) (rs : List RawRecord)
    (h : ∀ r ∈ rs, (r.title.getD "" = r.metaTitle.getD "N/A") ∧
         ∀ l ∈ splitLines (r.markdown.getD ""), headingOf 6 l = headingOf 4 l) :
    (rs.map (parseItem s)).flatMap chunkPage =
      (rs.map (parseItemCustom s)).flatMap chunkPageCustom := by
  induction rs with
  | nil => rfl
  | cons r t ih =>
    simp only [List.map_cons, List.flatMap_cons]
    rw [chunkPage_eq_custom s r (h r (by simp)).1 (h r (by simp)).2,
        ih (fun r hr => h r (by simp [hr]))]

/-! ## Claim theorems -/

/-- Claim C1, counterexample.  In `ingest.py` the `knowledge_version`
ledger row is added (line 174) before the chunk rows are added
(line 213): the ledger write precedes the chunk-table upsert in the
event order, and a simulated failure of the chunk-row write leaves the
ledger already advanced to the new version rather than untouched. -/
theorem c1_ledger_counterexample :
    ingestEventOrder.indexOf IngestEvent.addVersionRow <
      ingestEventOrder.indexOf IngestEvent.addChunkRows ∧
    (runIngest [] [] "2025-01-01" true).2 = false ∧
    getVersion (runIngest [] [] "2025-01-01" true).1 = some "2025-01-01" ∧
    (runIngest [] [] "2025-01-01" true).1.chunkRows = [] := by
  refine ⟨by decide, by decide, by decide, by decide⟩

/-- Claim C1, amended.  The ledger write runs after the chunk-table
creation (overwrite) but before the chunk rows are added: in every run
the event order is create-table, then `knowledge_version` write, then
chunk-row write, and if the chunk-row write fails the ledger has
already been advanced to the new version while the chunk table is left
empty; on success both the ledger and the chunk rows are written. -/
theorem c1_ledger_order (init : List (String × String))
    (files : List (String × List RawRecord)) (today : String) :
    ingestEventOrder.indexOf IngestEvent.createChunkTable <
      ingestEventOrder.indexOf IngestEvent.addVersionRow ∧
    ingestEventOrder.indexOf IngestEvent.addVersionRow <
      ingestEventOrder.indexOf IngestEvent.addChunkRows ∧
    (getVersion (runIngest init files today true).1 = some today ∧
     (runIngest init files today true).2 = false ∧
     (runIngest init files today true).1.chunkRows = []) ∧
    (getVersion (runIngest init files today false).1 = some today ∧
     (runIngest init files today false).1.chunkRows = processed_chunks files) := by
  refine ⟨by decide, by decide, ⟨?_, rfl, rfl⟩, ⟨?_, rfl⟩⟩
  · exact lookupMeta_filter_append init "knowledge_version" today
  · exact lookupMeta_filter_append init "knowledge_version" today

/-- Claim C2, counterexample.  A two-element input whose records carry
byte-identical markdown but different URLs is not collapsed: both
records become parsed pages and both contribute chunks (the second
URL appears in the chunk metadata). -/
theorem c2_dedup_counterexample :
    (parsed_data [("S", [⟨some "t1", none, some "# A\nhello", some "u1"⟩,
                         ⟨some "t2", none, some "# A\nhello", some "u2"⟩])]).length = 2 ∧
    (ingestChunks [("S", [⟨some "t1", none, some "# A\nhello", some "u1"⟩,
                          ⟨some "t2", none, some "# A\nhello", some "u2"⟩])]).map
        (fun c => lookupMeta "url" c.metadata) = [some "u1", some "u2"] := by
  refine ⟨by decide, by decide⟩

/-- Claim C2, amended.  The ingestion normalizer performs no content
dedup: for a two-element input whose records have identical markdown,
both records become parsed pages and both contribute their chunks, in
order.  (Content dedup by markdown hash exists upstream, in the crawl
scripts that produce the JSON files, not in the ingestion run.) -/
theorem c2_no_dedup (s : String) (r1 r2 : RawRecord)
    (h : r1.markdown = r2.markdown) :
    parsed_data [(s, [r1, r2])] = [parseItem s r1, parseItem s r2] ∧
    ingestChunks [(s, [r1, r2])] =
      chunkPage (parseItem s r1) ++ chunkPage (parseItem s r2) := by
  refine ⟨by simp [parsed_data], by simp [ingestChunks, parsed_data]⟩

/-- Witness for `c2_no_dedup` at a concrete duplicated-content input. -/
theorem c2_no_dedup_witness :
    (⟨some "t1", none, some "# A\nhello", some "u1"⟩ : RawRecord).markdown =
      (⟨some "t2", none, some "# A\nhello", some "u2"⟩ : RawRecord).markdown ∧
    (parsed_data [("S", [⟨some "t1", none, some "# A\nhello", some "u1"⟩,
                         ⟨some "t2", none, some "# A\nhello", some "u2"⟩])] =
      [parseItem "S" ⟨some "t1", none, some "# A\nhello", some "u1"⟩,
       parseItem "S" ⟨some "t2", none, some "# A\nhello", some "u2"⟩] ∧
     ingestChunks [("S", [⟨some "t1", none, some "# A\nhello", some "u1"⟩,
                          ⟨some "t2", none, some "# A\nhello", some "u2"⟩])] =
       chunkPage (parseItem "S" ⟨some "t1", none, some "# A\nhello", some "u1"⟩) ++
       chunkPage (parseItem "S" ⟨some "t2", none, some "# A\nhello", some "u2"⟩)) :=
  ⟨rfl, c2_no_dedup "S" ⟨some "t1", none, some "# A\nhello", some "u1"⟩
          ⟨some "t2", none, some "# A\nhello", some "u2"⟩ rfl⟩

/-- Claim C3, counterexample.  A record with no `markdown` field is not
rejected and not skipped: `item.get("markdown", "")` defaults to the
empty string, so the record still becomes a parsed page (with empty
content, hence zero chunks) and no error of any kind is raised. -/
theorem c3_malformed_counterexample :
    parsed_data [("S", [⟨some "t", none, none, some "u"⟩])] =
      [⟨"t", "", "u", "S"⟩] ∧
    ingestChunks [("S", [⟨some "t", none, none, some "u"⟩])] = [] := by
  refine ⟨by decide, by decide⟩

/-- Claim C3, amended.  A record whose `markdown` field is absent is
kept, not skipped: the normalizer substitutes the empty string, the
record becomes a parsed page with empty content contributing zero
chunks, and no `MalformedPageError` (which does not exist in the code)
is raised and no skipped-record count is reported. -/
theorem c3_missing_markdown (t mt u : Option String) (s : String) :
    parseItem s ⟨t, mt, none, u⟩ = ⟨t.getD "", "", u.getD "N/A", s⟩ ∧
    chunkPage (parseItem s ⟨t, mt, none, u⟩) = [] := by
  refine ⟨rfl, ?_⟩
  have h : textSplitDocs chunk_size chunk_overlap (markdownSplit 6 "") = [] := by decide
  show (textSplitDocs chunk_size chunk_overlap (markdownSplit 6 "")).map _ = []
  rw [h]
  rfl

/-- Claim C4, counterexample.  Stored row metadata carries no position:
for a page with two sections under identical headings, the two stored
rows (positions 0 and 1) have equal metadata records while their texts
differ, so a consumer cannot reconstruct reading order from the stored
metadata — no `(url, position)` pair exists in the rows. -/
theorem c4_position_counterexample :
    (processed_chunks [("S", [⟨some "T", none, some "# A\nx\n# A\ny", some "u"⟩])]).length = 2 ∧
    ((processed_chunks [("S", [⟨some "T", none, some "# A\nx\n# A\ny", some "u"⟩])])[0]?).map
        (fun r => r.metadata) =
      ((processed_chunks [("S", [⟨some "T", none, some "# A\nx\n# A\ny", some "u"⟩])])[1]?).map
        (fun r => r.metadata) ∧
    ((processed_chunks [("S", [⟨some "T", none, some "# A\nx\n# A\ny", some "u"⟩])])[0]?).map
        (fun r => r.text) ≠
      ((processed_chunks [("S", [⟨some "T", none, some "# A\nx\n# A\ny", some "u"⟩])])[1]?).map
        (fun r => r.text) := by
  refine ⟨by decide, by decide, by decide⟩

/-- Claim C4, amended.  A chunk's position within the run is preserved
only as the order of the stored row list — the i-th stored row is the
stored form of the i-th chunk and row texts appear in chunk emission
order — but no position field is written to the row metadata (the
enumerate counter of the chunk loop is unused), so stored metadata
alone does not determine a chunk's position. -/
theorem c4_order_only (files : List (String × List RawRecord)) :
    (processed_chunks files).map (fun r => r.text) =
      (ingestChunks files).map (fun c => c.pageContent) ∧
    ∀ i : Nat, (processed_chunks files)[i]? =
      ((ingestChunks files)[i]?).map toStoredRow := by
  constructor
  · simp only [processed_chunks, List.map_map]
    rfl
  · intro i
    simp [processed_chunks, List.getElem?_map]

/-- Claim C5, counterexample.  The two ingestion variants do not
produce the same chunks on every input: a record carrying a top-level
`title` yields `page_title "T"` under `ingest.py` but
`page_title "N/A"` under `custom-ingestion.py` (which reads
`metadata.title` instead), so the chunk sequences differ. -/
theorem c5_variant_counterexample :
    ingestChunks [("S", [⟨some "T", none, some "hello", some "u"⟩])] ≠
      customChunks [("S", [⟨some "T", none, some "hello", some "u"⟩])] := by
  decide

/-- Claim C5, amended.  The two variants run the same
normalize-and-chunk pipeline only on inputs where the title sources
agree and no level-5/6 headings occur: for every input record list in
which each record's top-level `title` (default empty) equals its
`metadata.title` (default `"N/A"`) and whose markdown has no level-5
or level-6 heading line, both variants produce identical chunk
sequences; otherwise they diverge in title extraction and in heading
depth (6 levels vs 4), beyond the storage-backend difference. -/
theorem c5_conditional_agreement (files : List (String × List RawRecord))
    (h : ∀ p ∈ files, ∀ r ∈ p.2,
      (r.title.getD "" = r.metaTitle.getD "N/A") ∧
      ∀ l ∈ splitLines (r.markdown.getD ""), headingOf 6 l = headingOf 4 l) :
    ingestChunks files = customChunks files := by
  induction files with
  | nil => rfl
  | cons f fs ih =>
    have e1 : ingestChunks (f :: fs) =
        (f.2.map (parseItem f.1)).flatMap chunkPage ++ ingestChunks fs := by
      simp [ingestChunks, parsed_data, List.flatMap_append]
    have e2 : customChunks (f :: fs) =
        (f.2.map (parseItemCustom f.1)).flatMap chunkPageCustom ++ customChunks fs := by
      simp [customChunks, parsed_data_custom, List.flatMap_append]
    rw [e1, e2, chunkRecords_eq_custom f.1 f.2 (h f (by simp)),
        ih (fun p hp => h p (by simp [hp]))]

/-- Witness for `c5_conditional_agreement` at a concrete input with an
agreeing title and shallow headings. -/
theorem c5_conditional_agreement_witness :
    ingestChunks [("S", [⟨some "T", some "T", some "# A\nhello", some "u"⟩])] =
      customChunks [("S", [⟨some "T", some "T", some "# A\nhello", some "u"⟩])] :=
  c5_conditional_agreement
    [("S", [⟨some "T", some "T", some "# A\nhello", some "u"⟩])] (by decide)

/-- Claim C6.  The chunker keeps heading-stack semantics: on the input
with headings A, B (level 2) and C the section containing "bar" carries
heading path [(1, A), (2, B)] and the section containing "baz" carries
heading path [(1, C)], the level-2 entry having been cleared by the new
level-1 heading; the same paths appear as `header_1`/`header_2`
metadata on the chunks this page yields in the pipeline. -/
theorem c6_heading_stack :
    markdownSplit 6 "# A\n\nfoo\n\n## B\n\nbar\n\n# C\n\nbaz" =
      [⟨"# A\n\nfoo\n", [(1, "A")]⟩,
       ⟨"## B\n\nbar\n", [(1, "A"), (2, "B")]⟩,
       ⟨"# C\n\nbaz", [(1, "C")]⟩] ∧
    (chunkPage ⟨"T", "# A\n\nfoo\n\n## B\n\nbar\n\n# C\n\nbaz", "u", "s"⟩).map
        (fun c => (c.pageContent, c.metadata)) =
      [("# A\n\nfoo\n",
        [("header_1", "A"), ("page_title", "T"), ("url", "u"), ("source", "s")]),
       ("## B\n\nbar\n",
        [("header_1", "A"), ("header_2", "B"), ("page_title", "T"), ("url", "u"),
         ("source", "s")]),
       ("# C\n\nbaz",
        [("header_1", "C"), ("page_title", "T"), ("url", "u"), ("source", "s")])] := by
  refine ⟨by decide, by decide⟩

/-- Claim C10.  The splitter of `ingest.py` records `header_5` in the
in-memory chunk metadata for a section under a level-5 heading, but the
stored row metadata retains only `header_1..header_4` (plus page
fields): the stored record for that chunk carries no trace of the
level-5 heading, and in general the stored metadata is unchanged by any
`header_5` or `header_6` entry. -/
theorem c10_deep_headers_dropped :
    ((chunkPage ⟨"T", "##### Deep\nx", "u", "s"⟩).map
        (fun c => lookupMeta "header_5" c.metadata) = [some "Deep"]) ∧
    ((chunkPage ⟨"T", "##### Deep\nx", "u", "s"⟩).map
        (fun c => (toStoredRow c).metadata) =
      [⟨none, none, none, none, some "T", some "s", some "u"⟩]) ∧
    (∀ (m : List (String × String)) (v : String),
       toStoredMeta (("header_5", v) :: m) = toStoredMeta m) ∧
    (∀ (m : List (String × String)) (v : String),
       toStoredMeta (("header_6", v) :: m) = toStoredMeta m) := by
  refine ⟨by decide, by decide, ?_, ?_⟩ <;>
    · intro m v
      unfold toStoredMeta
      rw [lookupMeta_cons_of_ne "header_1" _ _ _ (by decide),
        lookupMeta_cons_of_ne "header_2" _ _ _ (by decide),
        lookupMeta_cons_of_ne "header_3" _ _ _ (by decide),
        lookupMeta_cons_of_ne "header_4" _ _ _ (by decide),
        lookupMeta_cons_of_ne "page_title" _ _ _ (by decide),
        lookupMeta_cons_of_ne "source" _ _ _ (by decide),
        lookupMeta_cons_of_ne "url" _ _ _ (by decide)]

/-- Claim C8.  Chunking is deterministic: the chunk stage is a function
of exactly the page's title, content, url and source — two runs on
pages agreeing on those fields (in particular, two runs on the same
page) yield byte-identical chunk sequences, texts, order and heading
metadata included. -/
theorem c8_chunking_deterministic (p q : ParsedPage)
    (h1 : p.title = q.title) (h2 : p.content = q.content)
    (h3 : p.url = q.url) (h4 : p.source = q.source) :
    chunkPage p = chunkPage q := by
  have hpq : p = q := by
    cases p
    cases q
    simp_all
  rw [hpq]

/-- Witness for `c8_chunking_deterministic`: the same concrete page
chunked twice. -/
theorem c8_chunking_deterministic_witness :
    chunkPage ⟨"T", "# A\nx", "u", "s"⟩ = chunkPage ⟨"T", "# A\nx", "u", "s"⟩ :=
  c8_chunking_deterministic ⟨"T", "# A\nx", "u", "s"⟩ ⟨"T", "# A\nx", "u", "s"⟩
    rfl rfl rfl rfl

/-- Claim C9.  The polling loop of `wait_for_index` returns at poll
`j` exactly when the named index first appears in the table's index
list at poll `j`: any returned poll number is the first at which the
index appears, the loop does return the first such poll when the fuel
bound allows reaching it, and if the index never appears the loop
never terminates — for every fuel bound the loop exhausts it and no
iteration count suffices. -/
theorem c9_wait_for_index (l : Nat → List String) (name : String) :
    (∀ fuel k j, waitFrom l name fuel k = some j →
       k ≤ j ∧ indexFound (l j) name = true ∧
       ∀ i, i < j → k ≤ i → indexFound (l i) name = false) ∧
    (∀ fuel k j, indexFound (l j) name = true →
       (∀ i, i < j → k ≤ i → indexFound (l i) name = false) →
       k ≤ j → j < k + fuel → waitFrom l name fuel k = some j) ∧
    ((∀ j, indexFound (l j) name = false) →
       ∀ fuel k, waitFrom l name fuel k = none) := by
  refine ⟨?_, ?_, ?_⟩
  · intro fuel
    induction fuel with
    | zero => intro k j hj; simp [waitFrom] at hj
    | succ n ih =>
      intro k j hj
      simp only [waitFrom] at hj
      by_cases hf : indexFound (l k) name = true
      · rw [if_pos hf] at hj
        obtain rfl : k = j := Option.some.inj hj
        exact ⟨Nat.le_refl k, hf, fun i hik hki => absurd hik (Nat.not_lt.mpr hki)⟩
      · rw [if_neg hf] at hj
        obtain ⟨hkj, hfound, hmiss⟩ := ih (k + 1) j hj
        refine ⟨Nat.le_of_succ_le hkj, hfound, fun i hij hki => ?_⟩
        rcases Nat.eq_or_lt_of_le hki with he | hl
        · rw [← he]
          exact Bool.eq_false_iff.mpr hf
        · exact hmiss i hij hl
  · intro fuel
    induction fuel with
    | zero => intro k j _ _ hkj hlt; omega
    | succ n ih =>
      intro k j hfound hmiss hkj hlt
      simp only [waitFrom]
      rcases Nat.eq_or_lt_of_le hkj with he | hl
      · rw [he, if_pos hfound]
      · have hk : indexFound (l k) name = false := hmiss k hl (Nat.le_refl k)
        rw [if_neg (by simp [hk])]
        exact ih (k + 1) j hfound (fun i hij hki => hmiss i hij (Nat.le_of_succ_le hki))
          hl (by omega)
  · intro hnever fuel
    induction fuel with
    | zero => intro k; rfl
    | succ n ih =>
      intro k
      simp only [waitFrom]
      rw [if_neg (by simp [hnever k])]
      exact ih (k + 1)

/-- Witness for `c9_wait_for_index`: with an index list in which
`text_idx` first appears at poll 2, the loop returns poll 2. -/
theorem c9_wait_for_index_witness :
    waitFrom (fun k => if k == 2 then ["text_idx"] else []) "text_idx" 10 0 = some 2 :=
  (c9_wait_for_index (fun k => if k == 2 then ["text_idx"] else []) "text_idx").2.1
    10 0 2 (by decide) (by decide) (by decide) (by decide)

/-- The character splitter always emits at least one chunk. -/
theorem splitWithF_ne_nil (size overlap : Nat) (cut : List Char → Nat)
    (fuel : Nat) (cs : List Char) :
    splitWithF size overlap cut fuel cs ≠ [] := by
  cases fuel with
  | zero => simp [splitWithF]
  | succ n =>
    simp only [splitWithF]
    split <;> simp

/-- The first element of a non-empty list under an optional index. -/
theorem getElem?_zero_of_ne_nil {α : Type} [Inhabited α] (l : List α)
    (h : l ≠ []) : l[0]? = some l.headI := by
  cases l with
  | nil => exact absurd rfl h
  | cons a t => simp [List.headI]

/-- The first chunk emitted by the character splitter starts with the
first `overlap` characters of the input. -/
theorem splitWithF_headI_take (size overlap : Nat) (cut : List Char → Nat)
    (hcut : ∀ cs : List Char, size < cs.length → overlap < cut cs ∧ cut cs ≤ size)
    (fuel : Nat) (cs : List Char) :
    (splitWithF size overlap cut fuel cs).headI.take overlap = cs.take overlap := by
  cases fuel with
  | zero => rfl
  | succ n =>
    by_cases hle : cs.length ≤ size
    · simp [splitWithF, if_pos hle]
    · have hlt : size < cs.length := Nat.lt_of_not_le hle
      obtain ⟨ho, _⟩ := hcut cs hlt
      simp only [splitWithF, if_neg hle]
      show (cs.take (cut cs)).take overlap = cs.take overlap
      rw [List.take_take]
      congr 1
      omega

/-- Size law of the character splitter: with a cut choice that respects
the budget and makes progress, every emitted chunk has at most `size`
characters. -/
theorem splitWithF_length_le (size overlap : Nat) (cut : List Char → Nat)
    (hcut : ∀ cs : List Char, size < cs.length → overlap < cut cs ∧ cut cs ≤ size) :
    ∀ (fuel : Nat) (cs : List Char), cs.length ≤ fuel →
    ∀ c ∈ splitWithF size overlap cut fuel cs, c.length ≤ size := by
  intro fuel
  induction fuel with
  | zero =>
    intro cs hlen c hc
    simp only [splitWithF, List.mem_singleton] at hc
    subst hc
    omega
  | succ n ih =>
    intro cs hlen c hc
    by_cases hle : cs.length ≤ size
    · simp only [splitWithF, if_pos hle, List.mem_singleton] at hc
      subst hc
      exact hle
    · have hlt : size < cs.length := Nat.lt_of_not_le hle
      obtain ⟨ho, hcle⟩ := hcut cs hlt
      simp only [splitWithF, if_neg hle, List.mem_cons] at hc
      rcases hc with rfl | hmem
      · rw [List.length_take]
        omega
      · exact ih (cs.drop (cut cs - overlap)) (by rw [List.length_drop]; omega) c hmem

/-- Overlap law of the character splitter: the last `overlap`
characters of each chunk equal the first `overlap` characters of the
next chunk. -/
theorem splitWithF_adj (size overlap : Nat) (cut : List Char → Nat)
    (hcut : ∀ cs : List Char, size < cs.length → overlap < cut cs ∧ cut cs ≤ size) :
    ∀ (fuel : Nat) (cs : List Char), cs.length ≤ fuel →
    ∀ (i : Nat) (a b : List Char),
      (splitWithF size overlap cut fuel cs)[i]? = some a →
      (splitWithF size overlap cut fuel cs)[i + 1]? = some b →
      a.drop (a.length - overlap) = b.take overlap := by
  intro fuel
  induction fuel with
  | zero =>
    intro cs hlen i a b ha hb
    simp only [splitWithF, List.getElem?_cons_succ] at hb
    simp at hb
  | succ n ih =>
    intro cs hlen i a b ha hb
    by_cases hle : cs.length ≤ size
    · simp only [splitWithF, if_pos hle, List.getElem?_cons_succ] at hb
      simp at hb
    · have hlt : size < cs.length := Nat.lt_of_not_le hle
      obtain ⟨ho, hc⟩ := hcut cs hlt
      simp only [splitWithF, if_neg hle] at ha hb
      cases i with
      | zero =>
        rw [List.getElem?_cons_zero] at ha
        obtain rfl : cs.take (cut cs) = a := Option.some.inj ha
        rw [List.getElem?_cons_succ] at hb
        have hne := splitWithF_ne_nil size overlap cut n (cs.drop (cut cs - overlap))
        rw [getElem?_zero_of_ne_nil _ hne] at hb
        obtain rfl := Option.some.inj hb
        rw [splitWithF_headI_take size overlap cut hcut n (cs.drop (cut cs - overlap))]
        have hlen0 : (cs.take (cut cs)).length = cut cs := by
          rw [List.length_take]
          omega
        rw [hlen0, List.drop_take]
        congr 1
        omega
      | succ j =>
        rw [List.getElem?_cons_succ] at ha hb
        exact ih (cs.drop (cut cs - overlap)) (by rw [List.length_drop]; omega)
          j a b ha hb

/-- Claim C7.  Size/overlap law of the text splitter: for any cut
choice that respects the size budget and makes progress past the
overlap (the spec's greedy boundary search, the hard cut included),
every chunk split from an input has at most `size` characters, and the
trailing `overlap` characters of each chunk equal the leading `overlap`
characters of the next chunk of the same input. -/
theorem c7_size_overlap_law (size overlap : Nat) (cut : List Char → Nat)
    (hcut : ∀ cs : List Char, size < cs.length → overlap < cut cs ∧ cut cs ≤ size)
    (cs : List Char) :
    (∀ c ∈ splitWith size overlap cut cs, c.length ≤ size) ∧
    (∀ (i : Nat) (a b : List Char),
      (splitWith size overlap cut cs)[i]? = some a →
      (splitWith size overlap cut cs)[i + 1]? = some b →
      a.drop (a.length - overlap) = b.take overlap) :=
  ⟨splitWithF_length_le size overlap cut hcut cs.length cs (Nat.le_refl _),
   splitWithF_adj size overlap cut hcut cs.length cs (Nat.le_refl _)⟩

/-- Witness for `c7_size_overlap_law`: splitting eight characters with
size 5 and overlap 2 under the hard cut yields adjacent chunks
"abcde"/"defgh" whose trailing and leading two characters agree. -/
theorem c7_size_overlap_law_witness :
    ("abcde".toList).drop (("abcde".toList).length - 2) = ("defgh".toList).take 2 :=
  (c7_size_overlap_law 5 2 (fun _ => 5)
      (fun _ _ => ⟨by norm_num, by norm_num⟩) ("abcdefgh".toList)).2
    0 ("abcde".toList) ("defgh".toList) (by decide) (by decide)
